import Mathlib

/-
Shallow embedding of mattpymapper.py (file-dependency mapper).

The module index `module_map` is an association list from dotted module
name to file path; Python dict lookups become `List.lookup`.  File
contents are abstracted behind oracles: the reachability walker takes
`pImports : String → List String`, the per-path result of parse_imports
(a Python set, modelled as a list in iteration order), and the extractor
takes the outcome of ast.parse as an `Except` value, since the real
functions read the filesystem.  The recursive DFS of resolve_and_dfs is
embedded with a fuel parameter (module-count bound); fuel sufficiency is
proved below, mirroring the visited-guard termination argument.
-/

abbrev ModuleMap := List (String × String)

def keysOf (mm : ModuleMap) : List String := mm.map Prod.fst

/-- Model of the Python abstract-syntax-tree nodes relevant to
parse_imports: ast.Import carries alias names, ast.ImportFrom carries an
optional module string (None for a bare relative from-dot-import of
names only) and a relative level.  A parsed file is the list of nodes in
ast.walk order; all other node kinds are `Other`. -/
inductive AstNode where
  | Import (names : List String)
  | ImportFrom (module : Option String) (level : Nat)
  | Other
deriving DecidableEq

/-- Set insertion for the `imports` accumulator of parse_imports
(`imports.add(...)`): a Python set, modelled as a duplicate-free list in
insertion order. -/
def addImport (imports : List String) (name : String) : List String :=
  if name ∈ imports then imports else imports ++ [name]

/-- One iteration of the ast.walk loop of parse_imports (source lines
46-52): record each alias of an Import node; record the module of an
ImportFrom node when it is truthy (not None, not empty), ignoring the
relative level. -/
def collectStep (imports : List String) (node : AstNode) : List String :=
  match node with
  | AstNode.Import names => names.foldl addImport imports
  | AstNode.ImportFrom module _level =>
    match module with
    | some m => if m = "" then imports else addImport imports m
    | none => imports
  | AstNode.Other => imports

/-- The full ast.walk loop of parse_imports over all nodes of the tree. -/
def collectImports (tree : List AstNode) : List String :=
  tree.foldl collectStep []

/-- parse_imports (source lines 37-52).  The outcome of reading and
ast.parse-ing the file is passed in as `parseResult`, since the real
function performs I/O; result is (imports, stderr diagnostics).  On any
failure it warns on stderr, naming the file and the error, and returns
the empty import set. -/
def parse_imports (parseResult : Except String (List AstNode))
    (file_path : String) : List String × List String :=
  match parseResult with
  | Except.error exc =>
      ([], ["⚠️  Could not parse " ++ file_path ++ ": " ++ exc])
  | Except.ok tree => (collectImports tree, [])

/-- Python takes element zero of splitting `imp` on the dot character:
the prefix of `imp` before the first dot (the whole string when there is
no dot, empty for the empty string). -/
def rootOf (imp : String) : String :=
  String.mk (imp.data.takeWhile (fun c => c != '.'))

/-- Source line 70: `target = imp if imp in module_map else root` —
prefer the fully-qualified match, fall back to the root component. -/
def resolveTarget (mm : ModuleMap) (imp : String) : String :=
  if (mm.lookup imp).isSome then imp else rootOf imp

/-- Mutable closure state of resolve_and_dfs: the visited set (modelled
as a duplicate-free list, most recent first) and the edge list. -/
structure DfsState where
  visited : List String
  edges : List (String × String)
deriving DecidableEq

/-- The `for imp in parse_imports(path)` loop body of _dfs (source lines
67-73), abstracted over the recursive visit function `vf` so that the
fueled recursion below stays structural: resolve each import, and when
the target is in the index append the edge and recurse. -/
def dfsImports (mm : ModuleMap) (vf : String → DfsState → Option DfsState)
    (mod : String) : List String → DfsState → Option DfsState
  | [], st => some st
  | imp :: rest, st =>
    let target := resolveTarget mm imp
    if (mm.lookup target).isSome then
      match vf target ⟨st.visited, st.edges ++ [(mod, target)]⟩ with
      | none => none
      | some st2 => dfsImports mm vf mod rest st2
    else
      dfsImports mm vf mod rest st

/-- The recursive _dfs of resolve_and_dfs (source lines 59-73), with a
fuel parameter standing in for Python's unbounded recursion (`none`
means the fuel ran out; sufficiency of `mm.length + 1` is proved below).
A visited module returns at once; otherwise it is marked visited, and if
the index holds a (truthy) path for it, its imports are processed. -/
def dfsVisit (pImports : String → List String) (mm : ModuleMap) :
    Nat → String → DfsState → Option DfsState
  | 0, _, _ => none
  | fuel + 1, mod, st =>
    if mod ∈ st.visited then some st
    else
      let st1 : DfsState := ⟨mod :: st.visited, st.edges⟩
      match mm.lookup mod with
      | none => some st1
      | some path =>
        if path = "" then some st1
        else
          dfsImports mm (fun m s => dfsVisit pImports mm fuel m s) mod
            (pImports path) st1

/-- resolve_and_dfs (source lines 55-76): run the DFS from the start
module on empty state and return (visited, edges).  The fuel
`mm.length + 1` is proved sufficient below, so the default branch is
never taken. -/
def resolve_and_dfs (pImports : String → List String) (mm : ModuleMap)
    (start_mod : String) : List String × List (String × String) :=
  match dfsVisit pImports mm (mm.length + 1) start_mod ⟨[], []⟩ with
  | some st => (st.visited, st.edges)
  | none => ([], [])

/-- Source line 179: `unused = set(modules) - visited`, the set of index
keys not in the visited set. -/
def unusedOf (mm : ModuleMap) (visited : List String) : List String :=
  (keysOf mm).dedup.filter (fun k => decide (¬ k ∈ visited))

/-- Source line 182: `sorted(unused)`, the order in which main reports
the unused modules. -/
def sortedUnused (mm : ModuleMap) (visited : List String) : List String :=
  List.insertionSort (fun a b => a ≤ b) (unusedOf mm visited)

/-- A filesystem write performed by move_unused_files: os.makedirs or
shutil.move. -/
inductive FsOp where
  | makedirs (path : String)
  | move (src : String) (dest : String)
deriving DecidableEq

/-- os.path.join for two components. -/
def joinPath (a b : String) : String := a ++ "/" ++ b

/-- os.path.join with a list of trailing components. -/
def joinPathList (a : String) (parts : List String) : String :=
  parts.foldl joinPath a

/-- os.path.dirname: everything before the last path separator, empty
when there is none. -/
def dirname (p : String) : String :=
  String.intercalate "/" (p.splitOn "/").dropLast

/-- move_unused_files (source lines 97-113), returning the list of
filesystem writes it performs and the messages it prints.  Empty unused
set: report a no-op and do nothing.  Otherwise create the quarantine
root and, per module, create the destination directory and move the
file.  Python dict indexing `module_map[mod]` assumes the key is
present; callers pass only index keys, so the missing-key default is
irrelevant here. -/
def move_unused_files (unused : List String) (module_map : ModuleMap)
    (base_dir : String) (out_dir : String) : List FsOp × List String :=
  if unused.isEmpty then
    ([], ["👍 Nothing to move — no unused files."])
  else
    let dest_root := joinPath base_dir out_dir
    let init : List FsOp × List String := ([FsOp.makedirs dest_root], [])
    let step := fun (acc : List FsOp × List String) (mod : String) =>
      let src_path := ((module_map.lookup mod).getD "")
      let rel_parts := mod.splitOn "."
      let dest_path := joinPathList dest_root rel_parts ++ ".py"
      (acc.1 ++ [FsOp.makedirs (dirname dest_path),
                 FsOp.move src_path dest_path],
       acc.2 ++ ["➡️  Moved " ++ src_path ++ "  →  " ++ dest_path])
    let res := unused.foldl step init
    (res.1, res.2 ++ ["✅ Unused modules relocated to ./" ++ out_dir ++ "/"])

/- Concrete instances used to exercise the definitions. -/

/-- Two-module index: a.py and b.py at the scan root. -/
def mmDup : ModuleMap := [("a", "a.py"), ("b", "b.py")]

/-- Syntax tree of a.py in the duplicate-edge scenario: two distinct
Import statements, `b` and `b.x`. -/
def treeDup : List AstNode := [AstNode.Import ["b"], AstNode.Import ["b.x"]]

/-- Per-path import oracle of the duplicate-edge scenario: a.py yields
the extractor's output on `treeDup`; every other file is empty. -/
def pImportsDup : String → List String :=
  fun p => if p = "a.py" then (parse_imports (Except.ok treeDup) p).1 else []

/- Basic lemmas about the embedding. -/

theorem lookup_isSome_iff (mm : ModuleMap) (k : String) :
    (mm.lookup k).isSome ↔ k ∈ keysOf mm := by
  induction mm with
  | nil => simp [List.lookup, keysOf]
  | cons hd tl ih =>
    obtain ⟨a, b⟩ := hd
    by_cases h : k = a
    · subst h; simp [List.lookup, keysOf]
    · have hbeq : (k == a) = false := by simp [h]
      simp [List.lookup, keysOf, hbeq, h, ih]

theorem dfsImports_nil (mm : ModuleMap) (vf : String → DfsState → Option DfsState)
    (mod : String) (st : DfsState) : dfsImports mm vf mod [] st = some st := rfl

theorem dfsImports_cons (mm : ModuleMap) (vf : String → DfsState → Option DfsState)
    (mod imp : String) (rest : List String) (st : DfsState) :
    dfsImports mm vf mod (imp :: rest) st =
      (if (mm.lookup (resolveTarget mm imp)).isSome then
        match vf (resolveTarget mm imp)
            ⟨st.visited, st.edges ++ [(mod, resolveTarget mm imp)]⟩ with
        | none => none
        | some st2 => dfsImports mm vf mod rest st2
      else dfsImports mm vf mod rest st) := rfl

theorem dfsVisit_zero (pImports : String → List String) (mm : ModuleMap)
    (mod : String) (st : DfsState) : dfsVisit pImports mm 0 mod st = none := rfl

theorem dfsVisit_succ (pImports : String → List String) (mm : ModuleMap)
    (fuel : Nat) (mod : String) (st : DfsState) :
    dfsVisit pImports mm (fuel + 1) mod st =
      (if mod ∈ st.visited then some st
       else
        match mm.lookup mod with
        | none => some ⟨mod :: st.visited, st.edges⟩
        | some path =>
          if path = "" then some ⟨mod :: st.visited, st.edges⟩
          else
            dfsImports mm (fun m s => dfsVisit pImports mm fuel m s) mod
              (pImports path) ⟨mod :: st.visited, st.edges⟩) := rfl

theorem dfsImports_mono (mm : ModuleMap)
    (vf : String → DfsState → Option DfsState)
    (hvf : ∀ t s s2, vf t s = some s2 → s.visited ⊆ s2.visited) :
    ∀ (imps : List String) (mod : String) (st st2 : DfsState),
      dfsImports mm vf mod imps st = some st2 → st.visited ⊆ st2.visited := by
  intro imps
  induction imps with
  | nil =>
    intro mod st st2 h
    rw [dfsImports_nil] at h
    cases h
    exact fun x hx => hx
  | cons imp rest ih =>
    intro mod st st2 h
    rw [dfsImports_cons] at h
    by_cases hg : (mm.lookup (resolveTarget mm imp)).isSome
    · rw [if_pos hg] at h
      cases hv : vf (resolveTarget mm imp)
          ⟨st.visited, st.edges ++ [(mod, resolveTarget mm imp)]⟩ with
      | none => rw [hv] at h; cases h
      | some s1 =>
        rw [hv] at h
        have h1 := hvf _ _ _ hv
        have h2 := ih mod s1 st2 h
        exact fun x hx => h2 (h1 hx)
    · rw [if_neg hg] at h
      exact ih mod st st2 h

theorem dfsVisit_mono (pImports : String → List String) (mm : ModuleMap) :
    ∀ (fuel : Nat) (mod : String) (st st2 : DfsState),
      dfsVisit pImports mm fuel mod st = some st2 → st.visited ⊆ st2.visited := by
  intro fuel
  induction fuel with
  | zero => intro mod st st2 h; rw [dfsVisit_zero] at h; cases h
  | succ fuel ih =>
    intro mod st st2 h
    rw [dfsVisit_succ] at h
    by_cases hm : mod ∈ st.visited
    · rw [if_pos hm] at h; cases h; exact fun x hx => hx
    · rw [if_neg hm] at h
      have hsub : st.visited ⊆ mod :: st.visited := fun x hx => List.mem_cons_of_mem _ hx
      split at h
      · cases h; exact hsub
      · split at h
        · cases h; exact hsub
        · have h2 := dfsImports_mono mm _ (fun t s s2 hv => ih t s s2 hv) _ _ _ _ h
          exact fun x hx => h2 (hsub hx)

theorem dfsVisit_mem (pImports : String → List String) (mm : ModuleMap)
    (fuel : Nat) (mod : String) (st st2 : DfsState)
    (h : dfsVisit pImports mm fuel mod st = some st2) : mod ∈ st2.visited := by
  cases fuel with
  | zero => rw [dfsVisit_zero] at h; cases h
  | succ fuel =>
    rw [dfsVisit_succ] at h
    by_cases hm : mod ∈ st.visited
    · rw [if_pos hm] at h; cases h; exact hm
    · rw [if_neg hm] at h
      have hmem : mod ∈ (⟨mod :: st.visited, st.edges⟩ : DfsState).visited :=
        List.mem_cons_self _ _
      split at h
      · cases h; exact hmem
      · split at h
        · cases h; exact hmem
        · exact dfsImports_mono mm _
            (fun t s s2 hv => dfsVisit_mono pImports mm fuel t s s2 hv)
            _ _ _ _ h hmem

theorem dfsImports_edges_keys (mm : ModuleMap)
    (vf : String → DfsState → Option DfsState)
    (hvf : ∀ t s s2, vf t s = some s2 →
      (∀ e ∈ s.edges, e.1 ∈ keysOf mm ∧ e.2 ∈ keysOf mm) →
      ∀ e ∈ s2.edges, e.1 ∈ keysOf mm ∧ e.2 ∈ keysOf mm) :
    ∀ (imps : List String) (mod : String) (st st2 : DfsState),
      mod ∈ keysOf mm →
      dfsImports mm vf mod imps st = some st2 →
      (∀ e ∈ st.edges, e.1 ∈ keysOf mm ∧ e.2 ∈ keysOf mm) →
      ∀ e ∈ st2.edges, e.1 ∈ keysOf mm ∧ e.2 ∈ keysOf mm := by
  intro imps
  induction imps with
  | nil =>
    intro mod st st2 hmod h hst
    rw [dfsImports_nil] at h
    cases h; exact hst
  | cons imp rest ih =>
    intro mod st st2 hmod h hst
    rw [dfsImports_cons] at h
    by_cases hg : (mm.lookup (resolveTarget mm imp)).isSome
    · rw [if_pos hg] at h
      cases hv : vf (resolveTarget mm imp)
          ⟨st.visited, st.edges ++ [(mod, resolveTarget mm imp)]⟩ with
      | none => rw [hv] at h; cases h
      | some s1 =>
        rw [hv] at h
        have htarget : resolveTarget mm imp ∈ keysOf mm :=
          (lookup_isSome_iff mm _).1 hg
        have hse : ∀ e ∈ st.edges ++ [(mod, resolveTarget mm imp)],
            e.1 ∈ keysOf mm ∧ e.2 ∈ keysOf mm := by
          intro e he
          rcases List.mem_append.1 he with he | he
          · exact hst e he
          · rcases List.mem_singleton.1 he with rfl
            exact ⟨hmod, htarget⟩
        exact ih mod s1 st2 hmod h (hvf _ _ _ hv hse)
    · rw [if_neg hg] at h
      exact ih mod st st2 hmod h hst

theorem dfsVisit_edges_keys (pImports : String → List String) (mm : ModuleMap) :
    ∀ (fuel : Nat) (mod : String) (st st2 : DfsState),
      dfsVisit pImports mm fuel mod st = some st2 →
      (∀ e ∈ st.edges, e.1 ∈ keysOf mm ∧ e.2 ∈ keysOf mm) →
      ∀ e ∈ st2.edges, e.1 ∈ keysOf mm ∧ e.2 ∈ keysOf mm := by
  intro fuel
  induction fuel with
  | zero => intro mod st st2 h; rw [dfsVisit_zero] at h; cases h
  | succ fuel ih =>
    intro mod st st2 h hst
    rw [dfsVisit_succ] at h
    by_cases hm : mod ∈ st.visited
    · rw [if_pos hm] at h; cases h; exact hst
    · rw [if_neg hm] at h
      split at h
      · cases h; exact hst
      · split at h
        · cases h; exact hst
        · rename_i path hl hp
          have hmod : mod ∈ keysOf mm := by
            rw [← lookup_isSome_iff]
            rw [hl]
            rfl
          exact dfsImports_edges_keys mm _ (fun t s s2 hv => ih t s s2 hv)
            _ _ _ _ hmod h hst

/-- Both endpoints of an edge lie in the visited set of a state. -/
def edgeOk (st : DfsState) (e : String × String) : Prop :=
  e.1 ∈ st.visited ∧ e.2 ∈ st.visited

theorem dfsImports_edges_vis (mm : ModuleMap)
    (vf : String → DfsState → Option DfsState)
    (hmono : ∀ t s s2, vf t s = some s2 → s.visited ⊆ s2.visited)
    (hmem : ∀ t s s2, vf t s = some s2 → t ∈ s2.visited)
    (hnew : ∀ t s s2, vf t s = some s2 →
      ∀ e ∈ s2.edges, e ∈ s.edges ∨ edgeOk s2 e) :
    ∀ (imps : List String) (mod : String) (st st2 : DfsState),
      mod ∈ st.visited →
      dfsImports mm vf mod imps st = some st2 →
      ∀ e ∈ st2.edges, e ∈ st.edges ∨ edgeOk st2 e := by
  intro imps
  induction imps with
  | nil =>
    intro mod st st2 hmod h e he
    rw [dfsImports_nil] at h
    cases h; exact Or.inl he
  | cons imp rest ih =>
    intro mod st st2 hmod h e he
    rw [dfsImports_cons] at h
    by_cases hg : (mm.lookup (resolveTarget mm imp)).isSome
    · rw [if_pos hg] at h
      cases hv : vf (resolveTarget mm imp)
          ⟨st.visited, st.edges ++ [(mod, resolveTarget mm imp)]⟩ with
      | none => rw [hv] at h; cases h
      | some s1 =>
        rw [hv] at h
        have hsub1 : st.visited ⊆ s1.visited :=
          hmono _ ⟨st.visited, st.edges ++ [(mod, resolveTarget mm imp)]⟩ _ hv
        have hsub2 : s1.visited ⊆ st2.visited :=
          dfsImports_mono mm vf hmono _ _ _ _ h
        rcases ih mod s1 st2 (hsub1 hmod) h e he with he1 | hok
        · rcases hnew _ _ _ hv e he1 with he2 | hok1
          · rcases List.mem_append.1 he2 with he3 | he3
            · exact Or.inl he3
            · rcases List.mem_singleton.1 he3 with rfl
              refine Or.inr ⟨hsub2 (hsub1 hmod), ?_⟩
              exact hsub2 (hmem _ _ _ hv)
          · exact Or.inr ⟨hsub2 hok1.1, hsub2 hok1.2⟩
        · exact Or.inr hok
    · rw [if_neg hg] at h
      exact ih mod st st2 hmod h e he

theorem dfsVisit_edges_vis (pImports : String → List String) (mm : ModuleMap) :
    ∀ (fuel : Nat) (mod : String) (st st2 : DfsState),
      dfsVisit pImports mm fuel mod st = some st2 →
      ∀ e ∈ st2.edges, e ∈ st.edges ∨ edgeOk st2 e := by
  intro fuel
  induction fuel with
  | zero => intro mod st st2 h; rw [dfsVisit_zero] at h; cases h
  | succ fuel ih =>
    intro mod st st2 h e he
    rw [dfsVisit_succ] at h
    by_cases hm : mod ∈ st.visited
    · rw [if_pos hm] at h; cases h; exact Or.inl he
    · rw [if_neg hm] at h
      split at h
      · cases h; exact Or.inl he
      · split at h
        · cases h; exact Or.inl he
        · have hmem1 : mod ∈ (⟨mod :: st.visited, st.edges⟩ : DfsState).visited :=
            List.mem_cons_self _ _
          exact dfsImports_edges_vis mm _
            (fun t s s2 hv => dfsVisit_mono pImports mm fuel t s s2 hv)
            (fun t s s2 hv => dfsVisit_mem pImports mm fuel t s s2 hv)
            (fun t s s2 hv => ih t s s2 hv)
            _ _ _ _ hmem1 h e he

theorem dfsImports_nodup (mm : ModuleMap)
    (vf : String → DfsState → Option DfsState)
    (hvf : ∀ t s s2, vf t s = some s2 → s.visited.Nodup → s2.visited.Nodup) :
    ∀ (imps : List String) (mod : String) (st st2 : DfsState),
      dfsImports mm vf mod imps st = some st2 →
      st.visited.Nodup → st2.visited.Nodup := by
  intro imps
  induction imps with
  | nil =>
    intro mod st st2 h hst
    rw [dfsImports_nil] at h
    cases h; exact hst
  | cons imp rest ih =>
    intro mod st st2 h hst
    rw [dfsImports_cons] at h
    by_cases hg : (mm.lookup (resolveTarget mm imp)).isSome
    · rw [if_pos hg] at h
      cases hv : vf (resolveTarget mm imp)
          ⟨st.visited, st.edges ++ [(mod, resolveTarget mm imp)]⟩ with
      | none => rw [hv] at h; cases h
      | some s1 =>
        rw [hv] at h
        exact ih mod s1 st2 h (hvf _ _ _ hv hst)
    · rw [if_neg hg] at h
      exact ih mod st st2 h hst

theorem dfsVisit_nodup (pImports : String → List String) (mm : ModuleMap) :
    ∀ (fuel : Nat) (mod : String) (st st2 : DfsState),
      dfsVisit pImports mm fuel mod st = some st2 →
      st.visited.Nodup → st2.visited.Nodup := by
  intro fuel
  induction fuel with
  | zero => intro mod st st2 h; rw [dfsVisit_zero] at h; cases h
  | succ fuel ih =>
    intro mod st st2 h hst
    rw [dfsVisit_succ] at h
    by_cases hm : mod ∈ st.visited
    · rw [if_pos hm] at h; cases h; exact hst
    · rw [if_neg hm] at h
      have hcons : (mod :: st.visited).Nodup := List.nodup_cons.2 ⟨hm, hst⟩
      split at h
      · cases h; exact hcons
      · split at h
        · cases h; exact hcons
        · exact dfsImports_nodup mm _ (fun t s s2 hv => ih t s s2 hv)
            _ _ _ _ h hcons

/-- Number of index keys not yet visited: the decreasing measure of the
visited-guard termination argument. -/
def ucount (mm : ModuleMap) (visited : List String) : Nat :=
  ((keysOf mm).toFinset.filter (fun k => k ∉ visited)).card

theorem ucount_le_of_subset (mm : ModuleMap) {v v2 : List String} (h : v ⊆ v2) :
    ucount mm v2 ≤ ucount mm v := by
  apply Finset.card_le_card
  intro x hx
  rw [Finset.mem_filter] at hx ⊢
  exact ⟨hx.1, fun hxv => hx.2 (h hxv)⟩

theorem ucount_lt_cons (mm : ModuleMap) {v : List String} {mod : String}
    (hk : mod ∈ keysOf mm) (hv : mod ∉ v) :
    ucount mm (mod :: v) < ucount mm v := by
  apply Finset.card_lt_card
  have hsub : (keysOf mm).toFinset.filter (fun k => k ∉ mod :: v) ⊆
      (keysOf mm).toFinset.filter (fun k => k ∉ v) := by
    intro x hx
    rw [Finset.mem_filter] at hx ⊢
    exact ⟨hx.1, fun hxv => hx.2 (List.mem_cons_of_mem _ hxv)⟩
  rw [Finset.ssubset_iff_of_subset hsub]
  refine ⟨mod, ?_, ?_⟩
  · rw [Finset.mem_filter]
    exact ⟨List.mem_toFinset.2 hk, hv⟩
  · rw [Finset.mem_filter]
    intro hx
    exact hx.2 (List.mem_cons_self _ _)

theorem ucount_nil_le (mm : ModuleMap) : ucount mm [] ≤ mm.length := by
  calc ucount mm [] ≤ (keysOf mm).toFinset.card := Finset.card_filter_le _ _
  _ ≤ (keysOf mm).length := List.toFinset_card_le _
  _ = mm.length := List.length_map _ _

theorem dfsImports_isSome (mm : ModuleMap) (n : Nat)
    (vf : String → DfsState → Option DfsState)
    (hmono : ∀ t s s2, vf t s = some s2 → s.visited ⊆ s2.visited)
    (hsome : ∀ t s, ucount mm s.visited < n → (vf t s).isSome) :
    ∀ (imps : List String) (mod : String) (st : DfsState),
      ucount mm st.visited < n → (dfsImports mm vf mod imps st).isSome := by
  intro imps
  induction imps with
  | nil => intro mod st h; rw [dfsImports_nil]; rfl
  | cons imp rest ih =>
    intro mod st hu
    rw [dfsImports_cons]
    by_cases hg : (mm.lookup (resolveTarget mm imp)).isSome
    · rw [if_pos hg]
      have h1 := hsome (resolveTarget mm imp)
        ⟨st.visited, st.edges ++ [(mod, resolveTarget mm imp)]⟩ hu
      cases hv : vf (resolveTarget mm imp)
          ⟨st.visited, st.edges ++ [(mod, resolveTarget mm imp)]⟩ with
      | none => rw [hv] at h1; cases h1
      | some s1 =>
        have hsub : st.visited ⊆ s1.visited :=
          hmono _ ⟨st.visited, st.edges ++ [(mod, resolveTarget mm imp)]⟩ _ hv
        exact ih mod s1 (lt_of_le_of_lt (ucount_le_of_subset mm hsub) hu)
    · rw [if_neg hg]
      exact ih mod st hu

theorem dfsVisit_isSome (pImports : String → List String) (mm : ModuleMap) :
    ∀ (fuel : Nat) (mod : String) (st : DfsState),
      ucount mm st.visited < fuel → (dfsVisit pImports mm fuel mod st).isSome := by
  intro fuel
  induction fuel with
  | zero => intro mod st h; exact absurd h (Nat.not_lt_zero _)
  | succ fuel ih =>
    intro mod st hu
    rw [dfsVisit_succ]
    by_cases hm : mod ∈ st.visited
    · rw [if_pos hm]; rfl
    · rw [if_neg hm]
      split
      · rfl
      · split
        · rfl
        · rename_i path hl hp
          have hk : mod ∈ keysOf mm :=
            (lookup_isSome_iff mm mod).1 (by rw [hl]; rfl)
          have hlt : ucount mm (mod :: st.visited) < fuel :=
            lt_of_lt_of_le (ucount_lt_cons mm hk hm) (Nat.lt_succ_iff.1 hu)
          exact dfsImports_isSome mm fuel _
            (fun t s s2 hv => dfsVisit_mono pImports mm fuel t s s2 hv)
            (fun t s hs => ih t s hs) _ _ _ hlt

theorem resolve_and_dfs_eq (pImports : String → List String) (mm : ModuleMap)
    (start_mod : String) :
    ∃ st : DfsState,
      dfsVisit pImports mm (mm.length + 1) start_mod ⟨[], []⟩ = some st ∧
      resolve_and_dfs pImports mm start_mod = (st.visited, st.edges) := by
  have h := dfsVisit_isSome pImports mm (mm.length + 1) start_mod ⟨[], []⟩
    (Nat.lt_succ_of_le (ucount_nil_le mm))
  cases heq : dfsVisit pImports mm (mm.length + 1) start_mod ⟨[], []⟩ with
  | none => rw [heq] at h; cases h
  | some st => exact ⟨st, rfl, by simp [resolve_and_dfs, heq]⟩

theorem addImport_nodup (l : List String) (name : String) (h : l.Nodup) :
    (addImport l name).Nodup := by
  unfold addImport
  by_cases hm : name ∈ l
  · rw [if_pos hm]; exact h
  · rw [if_neg hm]
    refine List.Nodup.append h (List.nodup_singleton _) ?_
    intro x hx hx2
    rw [List.mem_singleton] at hx2
    subst hx2
    exact hm hx

theorem foldl_addImport_nodup (names : List String) :
    ∀ acc : List String, acc.Nodup → (names.foldl addImport acc).Nodup := by
  induction names with
  | nil => intro acc h; exact h
  | cons n rest ih => intro acc h; exact ih _ (addImport_nodup _ _ h)

theorem collectStep_nodup (acc : List String) (node : AstNode) (h : acc.Nodup) :
    (collectStep acc node).Nodup := by
  cases node with
  | Import names => exact foldl_addImport_nodup names acc h
  | ImportFrom module level =>
    cases module with
    | none => exact h
    | some m =>
      simp only [collectStep]
      by_cases hm : m = ""
      · rw [if_pos hm]; exact h
      · rw [if_neg hm]; exact addImport_nodup _ _ h
  | Other => exact h

theorem collectImports_nodup (tree : List AstNode) :
    (collectImports tree).Nodup := by
  unfold collectImports
  have h : ∀ acc : List String, acc.Nodup →
      (tree.foldl collectStep acc).Nodup := by
    induction tree with
    | nil => intro acc h; exact h
    | cons n rest ih => intro acc h; exact ih _ (collectStep_nodup _ _ h)
  exact h [] List.nodup_nil

/- Claim theorems. -/

/-- C1: for every module index and every start module in the index, the
unused set computed after traversal equals exactly the index keys minus
the visited set returned by the reachability walker (no overlap, no
omission), and the unused modules are reported in sorted order. -/
theorem claim_unused_exact_difference (pImports : String → List String)
    (mm : ModuleMap) (start_mod : String) (_hstart : start_mod ∈ keysOf mm) :
    (∀ m, m ∈ unusedOf mm (resolve_and_dfs pImports mm start_mod).1 ↔
      (m ∈ keysOf mm ∧ m ∉ (resolve_and_dfs pImports mm start_mod).1)) ∧
    List.Sorted (fun a b => a ≤ b)
      (sortedUnused mm (resolve_and_dfs pImports mm start_mod).1) ∧
    (∀ m, m ∈ sortedUnused mm (resolve_and_dfs pImports mm start_mod).1 ↔
      m ∈ unusedOf mm (resolve_and_dfs pImports mm start_mod).1) := by
  refine ⟨?_, ?_, ?_⟩
  · intro m
    simp [unusedOf]
  · exact List.sorted_insertionSort _ _
  · intro m
    exact (List.perm_insertionSort _ _).mem_iff

/-- Witness for C1 at a concrete index of the two modules a and c with
a.py empty: starting from a, module c is unused exactly because it is an
index key that was not visited. -/
theorem claim_unused_exact_difference_witness :
    ("a" ∈ keysOf [("a", "a.py"), ("c", "c.py")]) ∧
    ("c" ∈ unusedOf [("a", "a.py"), ("c", "c.py")]
        (resolve_and_dfs (fun _ => []) [("a", "a.py"), ("c", "c.py")] "a").1 ↔
      ("c" ∈ keysOf [("a", "a.py"), ("c", "c.py")] ∧
        "c" ∉ (resolve_and_dfs (fun _ => [])
          [("a", "a.py"), ("c", "c.py")] "a").1)) :=
  ⟨by decide,
   (claim_unused_exact_difference (fun _ => []) [("a", "a.py"), ("c", "c.py")]
     "a" (by decide)).1 "c"⟩

/-- C2: an import string that exactly matches an index key resolves to
that exact match, never its root component; the root fallback applies
only when the exact string is absent; and in the walk loop the recorded
edge target and the traversal target for such an import are both the
exact match (Variant A). -/
theorem claim_exact_match_preferred (mm : ModuleMap) (imp : String) :
    (imp ∈ keysOf mm → resolveTarget mm imp = imp) ∧
    (imp ∉ keysOf mm → resolveTarget mm imp = rootOf imp) ∧
    (∀ (vf : String → DfsState → Option DfsState) (mod : String)
        (rest : List String) (st : DfsState), imp ∈ keysOf mm →
      dfsImports mm vf mod (imp :: rest) st =
        Option.bind (vf imp ⟨st.visited, st.edges ++ [(mod, imp)]⟩)
          (fun st2 => dfsImports mm vf mod rest st2)) := by
  refine ⟨?_, ?_, ?_⟩
  · intro h
    simp only [resolveTarget]
    rw [if_pos ((lookup_isSome_iff mm imp).2 h)]
  · intro h
    simp only [resolveTarget]
    rw [if_neg (fun hs => h ((lookup_isSome_iff mm imp).1 hs))]
  · intro vf mod rest st h
    have hsome := (lookup_isSome_iff mm imp).2 h
    have ht : resolveTarget mm imp = imp := by
      simp only [resolveTarget]
      rw [if_pos hsome]
    rw [dfsImports_cons, ht, if_pos hsome]
    cases vf imp ⟨st.visited, st.edges ++ [(mod, imp)]⟩ <;> rfl

/-- Witness for C2: in the index holding a and b, the raw string `a` is
an exact key, so it resolves to itself. -/
theorem claim_exact_match_preferred_witness :
    resolveTarget mmDup "a" = "a" :=
  (claim_exact_match_preferred mmDup "a").1 (by decide)

/-- C3: starting from an index key, every edge returned by the walker
has both endpoints in the module index, and an import whose resolved
target is absent from the index contributes no edge at all. -/
theorem claim_edges_in_index (pImports : String → List String)
    (mm : ModuleMap) (start_mod : String) (_hstart : start_mod ∈ keysOf mm) :
    (∀ e ∈ (resolve_and_dfs pImports mm start_mod).2,
      e.1 ∈ keysOf mm ∧ e.2 ∈ keysOf mm) ∧
    (∀ (vf : String → DfsState → Option DfsState) (mod imp : String)
        (rest : List String) (st : DfsState),
      (mm.lookup (resolveTarget mm imp)).isSome = false →
      dfsImports mm vf mod (imp :: rest) st = dfsImports mm vf mod rest st) := by
  constructor
  · obtain ⟨st, heq, hres⟩ := resolve_and_dfs_eq pImports mm start_mod
    rw [hres]
    intro e he
    exact dfsVisit_edges_keys pImports mm _ _ _ _ heq
      (by intro e h; cases h) e he
  · intro vf mod imp rest st hg
    rw [dfsImports_cons]
    simp [hg]

/-- Witness for C3: in the duplicate-edge scenario the edge (a, b) is
in the walker output and both its endpoints are index keys. -/
theorem claim_edges_in_index_witness :
    ("a", "b").1 ∈ keysOf mmDup ∧ ("a", "b").2 ∈ keysOf mmDup :=
  (claim_edges_in_index pImportsDup mmDup "a" (by decide)).1
    ("a", "b") (by decide)

/-- C4: for every module index and every start module, the visited set
returned by the reachability walker contains the start module itself. -/
theorem claim_start_visited (pImports : String → List String)
    (mm : ModuleMap) (start_mod : String) :
    start_mod ∈ (resolve_and_dfs pImports mm start_mod).1 := by
  obtain ⟨st, heq, hres⟩ := resolve_and_dfs_eq pImports mm start_mod
  rw [hres]
  exact dfsVisit_mem pImports mm _ _ _ _ heq

/-- C5: whenever reading or parsing a file fails, parse_imports emits a
single stderr diagnostic naming the file and the underlying error and
returns the empty import set; the failure never escapes (the function is
total and simply returns). -/
theorem claim_parse_failure_recovers (file_path exc : String) :
    parse_imports (Except.error exc) file_path =
      ([], ["⚠️  Could not parse " ++ file_path ++ ": " ++ exc]) := rfl

/-- C6: edges are not deduplicated: with the index holding a and b, and
a.py holding two distinct imports, `b` and `b.x` (whose root is b), the
walk from a records the edge from a to b twice, while the per-file
set of imports itself is duplicate-free. -/
theorem claim_edges_not_deduplicated :
    (resolve_and_dfs pImportsDup mmDup "a").2 = [("a", "b"), ("a", "b")] ∧
    ("b" : String) ≠ "b.x" ∧
    pImportsDup "a.py" = ["b", "b.x"] ∧
    ∀ tree : List AstNode, (collectImports tree).Nodup := by
  refine ⟨by decide, by decide, by decide, collectImports_nodup⟩

/-- C7: for every module index and start module the depth-first walk
terminates: with fuel one more than the index size the embedded DFS
completes (it never exhausts the fuel), each module is entered at most
once (the visited list is duplicate-free), and resolve_and_dfs returns
that final state. -/
theorem claim_dfs_terminates (pImports : String → List String)
    (mm : ModuleMap) (start_mod : String) :
    ∃ st : DfsState,
      dfsVisit pImports mm (mm.length + 1) start_mod ⟨[], []⟩ = some st ∧
      st.visited.Nodup ∧
      resolve_and_dfs pImports mm start_mod = (st.visited, st.edges) := by
  obtain ⟨st, heq, hres⟩ := resolve_and_dfs_eq pImports mm start_mod
  exact ⟨st, heq, dfsVisit_nodup pImports mm _ _ _ _ heq List.nodup_nil, hres⟩

/-- C8: when the unused set is empty, move_unused_files performs no
filesystem write at all (no makedirs, no move) and only reports the
no-op message. -/
theorem claim_move_noop_when_empty (mm : ModuleMap)
    (base_dir out_dir : String) :
    move_unused_files [] mm base_dir out_dir =
      ([], ["👍 Nothing to move — no unused files."]) := rfl

/-- C9: every edge returned by the reachability walker has both its
source and its target in the returned visited set. -/
theorem claim_edge_endpoints_visited (pImports : String → List String)
    (mm : ModuleMap) (start_mod : String) :
    ∀ e ∈ (resolve_and_dfs pImports mm start_mod).2,
      e.1 ∈ (resolve_and_dfs pImports mm start_mod).1 ∧
      e.2 ∈ (resolve_and_dfs pImports mm start_mod).1 := by
  obtain ⟨st, heq, hres⟩ := resolve_and_dfs_eq pImports mm start_mod
  rw [hres]
  intro e he
  rcases dfsVisit_edges_vis pImports mm _ _ _ _ heq e he with h | h
  · cases h
  · exact h

/-- Witness for C9: in the duplicate-edge scenario the edge (a, b) has
both endpoints in the visited set of the walk from a. -/
theorem claim_edge_endpoints_visited_witness :
    ("a", "b").1 ∈ (resolve_and_dfs pImportsDup mmDup "a").1 ∧
    ("a", "b").2 ∈ (resolve_and_dfs pImportsDup mmDup "a").1 :=
  claim_edge_endpoints_visited pImportsDup mmDup "a" ("a", "b") (by decide)

/-- C10: the extractor records the module name of a relative
from-import exactly as written, ignoring the relative level (the same
name is recorded for every level), so it can resolve against an
unrelated top-level index entry of that name; only a relative import
with no module name at all is skipped. -/
theorem claim_relative_import_bare_name (name : String) (lvl lvl2 : Nat)
    (mm : ModuleMap) (hname : name ≠ "") (hmem : name ∈ keysOf mm) :
    collectImports [AstNode.ImportFrom (some name) lvl] = [name] ∧
    collectImports [AstNode.ImportFrom (some name) lvl] =
      collectImports [AstNode.ImportFrom (some name) lvl2] ∧
    collectImports [AstNode.ImportFrom none lvl] = [] ∧
    resolveTarget mm name = name := by
  have h1 : collectImports [AstNode.ImportFrom (some name) lvl] = [name] := by
    simp [collectImports, collectStep, addImport, hname]
  refine ⟨h1, ?_, rfl, ?_⟩
  · rw [h1]
    simp [collectImports, collectStep, addImport, hname]
  · simp only [resolveTarget]
    rw [if_pos ((lookup_isSome_iff mm name).2 hmem)]

/-- Witness for C10: a relative from-import of module sub at level 1
contributes the bare string sub. -/
theorem claim_relative_import_bare_name_witness :
    collectImports [AstNode.ImportFrom (some "sub") 1] = ["sub"] :=
  (claim_relative_import_bare_name "sub" 1 2 [("sub", "sub.py")]
    (by decide) (by decide)).1
